import Mathlib

/-!
Verification of the `aircraft-diff` configuration-drift tool.

The development shallowly embeds `src/main.rs`: strings are modelled as
`List Char`, the section-interning arena becomes plain section-name strings
(the Rust `Key` derives `PartialEq`/`Hash`, which compare the `&str` section
by content, so interning identity is unobservable), and `hashbrown::HashMap`
becomes an association list with unique keys (`mapInsert` overwrites).
-/

set_option autoImplicit false

namespace AircraftDiff

/-- Rust `str::trim` on a character list: drop leading and trailing
whitespace. -/
def trim (s : List Char) : List Char :=
  ((s.dropWhile Char.isWhitespace).reverse.dropWhile Char.isWhitespace).reverse

/-- `fn is_whitespace(s: &str) -> bool` (main.rs:201-203): all characters are
whitespace. -/
def is_whitespace (s : List Char) : Bool :=
  s.all Char.isWhitespace

/-- Rust `str::find(char)`: index of the first occurrence of `c`, if any. -/
def findChar (c : Char) : List Char → Option Nat
  | [] => none
  | x :: rest => if x = c then some 0 else (findChar c rest).map (· + 1)

/-- Split a character stream at every newline character (keeping empty
segments), the auxiliary step of `BufRead::lines`. -/
def splitNL : List Char → List (List Char)
  | [] => [[]]
  | c :: rest =>
    if c = '\n' then [] :: splitNL rest
    else
      match splitNL rest with
      | [] => [[c]]
      | h :: t => (c :: h) :: t

/-- Drop a single trailing carriage return, as `BufRead::lines` does per
line. -/
def stripCR (l : List Char) : List Char :=
  if l.getLast? = some '\r' then l.dropLast else l

/-- Rust `BufRead::lines` over a fully decoded stream: split at `'\n'`, with
no empty final line when the stream ends in a newline, and a trailing `'\r'`
stripped from each line. -/
def rustLines (s : List Char) : List (List Char) :=
  let parts := splitNL s
  let parts :=
    match parts.getLast? with
    | some [] => parts.dropLast
    | _ => parts
  parts.map stripCR

/-- The pre-loop filter of `read_to_map` (main.rs:166):
`!x.is_empty() && !is_whitespace(&x)`. -/
def keepLine (l : List Char) : Bool :=
  !l.isEmpty && !is_whitespace l

/-- `struct Key<'a>` (main.rs:27-31). The Rust field `section: &'a str` is an
arena-interned slice, but the derived `PartialEq`/`Hash` compare it by string
content, so we store the section name itself. -/
structure Key where
  sectionName : List Char
  property : List Char
deriving DecidableEq

/-- `HashMap<Key, String>` as an association list whose keys are kept
unique by `mapInsert`. -/
abbrev ConfigMap := List (Key × List Char)

/-- `HashMap::insert`: overwrite any existing entry for `k` with value `v`. -/
def mapInsert (m : ConfigMap) (k : Key) (v : List Char) : ConfigMap :=
  (k, v) :: m.filter (fun p => p.1 ≠ k)

/-- `HashMap::get`-style lookup on the association list. -/
def lookupKey (k : Key) : ConfigMap → Option (List Char)
  | [] => none
  | (k', v) :: rest => if k' = k then some v else lookupKey k rest

/-- `HashMap::remove`: take out the entry for `k`, returning its value and
the remaining map. -/
def mapRemove (k : Key) : ConfigMap → Option (List Char × ConfigMap)
  | [] => none
  | (k', v) :: rest =>
    if k' = k then some (v, rest)
    else (mapRemove k rest).map (fun p => (p.1, (k', v) :: p.2))

/-- The map has no duplicated keys (true of every `HashMap` image). -/
def nodupKeys (m : ConfigMap) : Prop :=
  (m.map Prod.fst).Nodup

instance (m : ConfigMap) : Decidable (nodupKeys m) :=
  inferInstanceAs (Decidable ((m.map Prod.fst).Nodup))

/-- Comment stripping and trimming of one line (main.rs:169-175): truncate at
the first `';'` if present — `split_at` keeps the `';'` in the discarded
half — then trim. -/
def cleanLine (line : List Char) : List Char :=
  match findChar ';' line with
  | some idx => trim (line.take idx)
  | none => trim line

/-- The body of the `for line in config` loop of `read_to_map`
(main.rs:168-196), acting on the state (current section, map). Note that in
the key/value branch `split_at(idx)` at the first `'='` leaves the `'='`
itself at the head of the value half. -/
def processLine (st : List Char × ConfigMap) (line : List Char) : List Char × ConfigMap :=
  let l := cleanLine line
  if l.isEmpty then st
  else if l.head? == some '[' && l.getLast? == some ']' then
    ((l.drop 1).dropLast, st.2)
  else
    match findChar '=' l with
    | some idx => (st.1, mapInsert st.2 ⟨st.1, trim (l.take idx)⟩ (trim (l.drop idx)))
    | none => st

/-- `fn read_to_map` (main.rs:158-199): split the stream into lines, drop
empty and all-whitespace lines, then fold `processLine` starting from
section `"root"` and the empty map. -/
def read_to_map (input : List Char) : ConfigMap :=
  (((rustLines input).filter keepLine).foldl processLine ("root".toList, [])).2

/-- `struct Difference` (main.rs:39-43). -/
structure Difference where
  key : Key
  left : List Char
  right : List Char
deriving DecidableEq

/-- The map-level core of `fn diff` (main.rs:144-155): for each left entry,
`remove` the key from the (mutable) right map and emit a `Difference` when
both values exist and differ. -/
def diffMaps : ConfigMap → ConfigMap → List Difference
  | [], _ => []
  | (k, v) :: rest, r =>
    match mapRemove k r with
    | none => diffMaps rest r
    | some (w, r') =>
      if v ≠ w then ⟨k, v, w⟩ :: diffMaps rest r' else diffMaps rest r'

/-- `fn diff` (main.rs:140-156) on two decoded streams. -/
def diff (left right : List Char) : List Difference :=
  diffMaps (read_to_map left) (read_to_map right)

/-- `Ignored::is_ignored` (main.rs:59-65): short-circuit on the empty set,
otherwise membership of the section name or of the property. -/
def is_ignored (ig : List (List Char)) (k : Key) : Bool :=
  if ig.isEmpty then false
  else decide (k.sectionName ∈ ig) || decide (k.property ∈ ig)

/-! ### Bounds-checked variant

Rust string slicing `&line[lo..hi]` and `str::split_at(mid)` panic when an
index exceeds the length (or falls inside a multi-byte character; in the
character-list model every position is a character boundary, and the two
indices the code slices at — a `find` result and `len - 1` below a
one-byte `']'` — are character boundaries in the byte model as well). The
`Checked` functions return `none` exactly where the Rust operation would
panic, so totality of `read_to_map` is the statement that they always
return `some`. -/

/-- `str::split_at(mid)` with its panicking bounds check made explicit. -/
def splitAtChecked (s : List Char) (mid : Nat) : Option (List Char × List Char) :=
  if mid ≤ s.length then some (s.take mid, s.drop mid) else none

/-- `&s[lo..hi]` with its panicking bounds check made explicit. -/
def sliceChecked (s : List Char) (lo hi : Nat) : Option (List Char) :=
  if lo ≤ hi ∧ hi ≤ s.length then some ((s.take hi).drop lo) else none

/-- `cleanLine` with the `split_at` at the first `';'` bounds-checked. -/
def cleanLineChecked (line : List Char) : Option (List Char) :=
  match findChar ';' line with
  | some idx => (splitAtChecked line idx).map (fun p => trim p.1)
  | none => some (trim line)

/-- `processLine` with every slicing operation bounds-checked. -/
def processLineChecked (st : List Char × ConfigMap) (line : List Char) :
    Option (List Char × ConfigMap) :=
  (cleanLineChecked line).bind (fun l =>
    if l.isEmpty then some st
    else if l.head? == some '[' && l.getLast? == some ']' then
      (sliceChecked l 1 (l.length - 1)).map (fun name => (name, st.2))
    else
      match findChar '=' l with
      | some idx =>
        (splitAtChecked l idx).map
          (fun p => (st.1, mapInsert st.2 ⟨st.1, trim p.1⟩ (trim p.2)))
      | none => some st)

/-- `read_to_map` with every slicing operation bounds-checked: `none` on any
input that would make the Rust code panic. -/
def read_to_mapChecked (input : List Char) : Option ConfigMap :=
  (((rustLines input).filter keepLine).foldl
    (fun st line => st.bind (fun s => processLineChecked s line))
    (some ("root".toList, []))).map Prod.snd

/-! ### Basic lemmas -/

theorem findChar_lt_length {c : Char} : ∀ {l : List Char} {i : Nat},
    findChar c l = some i → i < l.length := by
  intro l
  induction l with
  | nil => intro i h; simp [findChar] at h
  | cons x rest ih =>
    intro i h
    simp only [findChar] at h
    split at h
    · cases h; simp
    · match hrec : findChar c rest with
      | none => rw [hrec] at h; simp at h
      | some j =>
        rw [hrec] at h
        simp only [Option.map_some'] at h
        cases h
        have := ih hrec
        simpa using Nat.succ_lt_succ this

theorem length_ge_two_of_head_getLast {l : List Char}
    (hh : l.head? = some '[') (hl : l.getLast? = some ']') : 2 ≤ l.length := by
  match l with
  | [] => simp at hh
  | [a] =>
    simp [List.head?] at hh
    simp [List.getLast?] at hl
    subst hh
    cases hl
  | a :: b :: rest => simp [Nat.succ_le_succ, Nat.succ_le_succ_iff]

/-- The bounds check at the first `';'` always passes. -/
theorem cleanLineChecked_eq (line : List Char) :
    cleanLineChecked line = some (cleanLine line) := by
  unfold cleanLineChecked cleanLine
  split
  · next idx hf =>
    have hle : idx ≤ line.length := Nat.le_of_lt (findChar_lt_length hf)
    rw [splitAtChecked, if_pos hle]
    rfl
  · rfl

/-- The slice under the section-header guard always has valid bounds. -/
theorem sliceChecked_header {l : List Char}
    (hh : l.head? = some '[') (hlast : l.getLast? = some ']') :
    sliceChecked l 1 (l.length - 1) = some ((l.drop 1).dropLast) := by
  have h2 : 2 ≤ l.length := length_ge_two_of_head_getLast hh hlast
  have hcond : 1 ≤ l.length - 1 ∧ l.length - 1 ≤ l.length :=
    ⟨Nat.le_sub_one_of_lt h2, Nat.sub_le _ _⟩
  unfold sliceChecked
  rw [if_pos hcond]
  congr 1
  rw [List.drop_take]
  rw [List.dropLast_eq_take, List.length_drop]

/-- On every line, the checked loop body succeeds and agrees with the total
embedding. -/
theorem processLineChecked_eq (st : List Char × ConfigMap) (line : List Char) :
    processLineChecked st line = some (processLine st line) := by
  unfold processLineChecked processLine
  rw [cleanLineChecked_eq, Option.some_bind]
  generalize cleanLine line = l
  by_cases he : l.isEmpty = true
  · rw [if_pos he, if_pos he]
  · rw [if_neg he, if_neg he]
    by_cases hdr : (l.head? == some '[' && l.getLast? == some ']') = true
    · rw [if_pos hdr, if_pos hdr]
      have hh : l.head? = some '[' := eq_of_beq ((Bool.and_eq_true _ _).mp hdr).1
      have hlast : l.getLast? = some ']' := eq_of_beq ((Bool.and_eq_true _ _).mp hdr).2
      rw [sliceChecked_header hh hlast]
      rfl
    · rw [if_neg hdr, if_neg hdr]
      split
      · next idx hf =>
        have hle : idx ≤ l.length := Nat.le_of_lt (findChar_lt_length hf)
        rw [splitAtChecked, if_pos hle]
        rfl
      · rfl

/-- The checked reader never hits a failing bounds check. -/
theorem read_to_mapChecked_eq_aux :
    ∀ (ls : List (List Char)) (st : List Char × ConfigMap),
      ls.foldl (fun st line => st.bind (fun s => processLineChecked s line)) (some st) =
        some (ls.foldl processLine st) := by
  intro ls
  induction ls with
  | nil => intro st; rfl
  | cons l rest ih =>
    intro st
    rw [List.foldl_cons, List.foldl_cons]
    have h1 : (some st).bind (fun s => processLineChecked s l) = some (processLine st l) := by
      rw [Option.some_bind, processLineChecked_eq]
    rw [h1]
    exact ih _

/-- The checked reader agrees with the total embedding on every input. -/
theorem read_to_mapChecked_eq (input : List Char) :
    read_to_mapChecked input = some (read_to_map input) := by
  unfold read_to_mapChecked read_to_map
  rw [read_to_mapChecked_eq_aux]
  rfl

/-! ### Association-list lemmas for the diff engine -/

theorem lookupKey_eq_none_of_not_mem {k : Key} :
    ∀ {r : ConfigMap}, k ∉ r.map Prod.fst → lookupKey k r = none := by
  intro r
  induction r with
  | nil => intro _; rfl
  | cons p rest ih =>
    intro h
    rw [List.map_cons, List.mem_cons] at h
    push_neg at h
    obtain ⟨p1, p2⟩ := p
    rw [lookupKey, if_neg (fun he => h.1 he.symm)]
    exact ih h.2

theorem mapRemove_map_fst (k : Key) :
    ∀ (r : ConfigMap), (mapRemove k r).map Prod.fst = lookupKey k r := by
  intro r
  induction r with
  | nil => rfl
  | cons p rest ih =>
    obtain ⟨p1, p2⟩ := p
    rw [mapRemove, lookupKey]
    by_cases hp : p1 = k
    · rw [if_pos hp, if_pos hp]
      rfl
    · rw [if_neg hp, if_neg hp, ← ih, Option.map_map]
      cases mapRemove k rest <;> rfl

theorem lookupKey_mapRemove_other {k k₀ : Key} (hne : k ≠ k₀) :
    ∀ {r r' : ConfigMap} {w : List Char},
      mapRemove k₀ r = some (w, r') → lookupKey k r' = lookupKey k r := by
  intro r
  induction r with
  | nil => intro r' w h; simp [mapRemove] at h
  | cons p rest ih =>
    intro r' w h
    obtain ⟨p1, p2⟩ := p
    rw [mapRemove] at h
    by_cases hp : p1 = k₀
    · rw [if_pos hp] at h
      cases h
      rw [lookupKey, if_neg (fun he : p1 = k => hne (he ▸ hp))]
    · rw [if_neg hp] at h
      match hrec : mapRemove k₀ rest with
      | none => rw [hrec] at h; simp at h
      | some q =>
        rw [hrec] at h
        simp only [Option.map_some'] at h
        cases h
        rw [lookupKey, lookupKey]
        by_cases hpk : p1 = k
        · rw [if_pos hpk, if_pos hpk]
        · rw [if_neg hpk, if_neg hpk]
          exact ih hrec

/-- Characterization of the diff loop: provided the left map has unique keys
(as every `HashMap` image does), a difference is emitted exactly for the keys
present in both maps whose values differ. -/
theorem diffMaps_mem_iff :
    ∀ (left : ConfigMap), nodupKeys left →
      ∀ (right : ConfigMap) (k : Key) (v w : List Char),
        (⟨k, v, w⟩ : Difference) ∈ diffMaps left right ↔
          (lookupKey k left = some v ∧ lookupKey k right = some w ∧ v ≠ w) := by
  intro left
  induction left with
  | nil =>
    intro _ right k v w
    simp [diffMaps, lookupKey]
  | cons p rest ih =>
    intro hnd right k v w
    obtain ⟨k₀, v₀⟩ := p
    rw [nodupKeys, List.map_cons, List.nodup_cons] at hnd
    obtain ⟨hk₀, hndrest⟩ := hnd
    rw [diffMaps]
    cases hrem : mapRemove k₀ right with
    | none =>
      dsimp only
      have hlook : lookupKey k₀ right = none := by
        rw [← mapRemove_map_fst, hrem]
        rfl
      rw [ih hndrest right k v w]
      by_cases hk : k = k₀
      · subst hk
        rw [lookupKey_eq_none_of_not_mem hk₀, hlook]
        simp
      · rw [lookupKey, if_neg (fun h : k₀ = k => hk h.symm)]
    | some q =>
      obtain ⟨w₀, r'⟩ := q
      dsimp only
      have hlook : lookupKey k₀ right = some w₀ := by
        rw [← mapRemove_map_fst, hrem]
        rfl
      by_cases hk : k = k₀
      · subst hk
        have hrest : lookupKey k rest = none := lookupKey_eq_none_of_not_mem hk₀
        rw [lookupKey, if_pos rfl, hlook]
        by_cases hvw : v₀ ≠ w₀
        · rw [if_pos hvw, List.mem_cons, ih hndrest r' k v w, hrest]
          constructor
          · rintro (heq | ⟨h, -, -⟩)
            · injection heq with h1 h2 h3
              subst h2
              subst h3
              exact ⟨rfl, rfl, fun hc => hvw hc⟩
            · cases h
          · rintro ⟨hv, hw, hne⟩
            injection hv with hv
            injection hw with hw
            subst hv
            subst hw
            exact Or.inl rfl
        · rw [if_neg hvw, ih hndrest r' k v w, hrest]
          push_neg at hvw
          constructor
          · rintro ⟨h, -, -⟩
            cases h
          · rintro ⟨hv, hw, hne⟩
            injection hv with hv
            injection hw with hw
            exact absurd (by rw [← hv, ← hw]; exact hvw) hne
      · have hr' : lookupKey k r' = lookupKey k right := lookupKey_mapRemove_other hk hrem
        rw [lookupKey, if_neg (fun h : k₀ = k => hk h.symm)]
        by_cases hvw : v₀ ≠ w₀
        · rw [if_pos hvw, List.mem_cons, ih hndrest r' k v w, hr']
          constructor
          · rintro (heq | hmem)
            · injection heq with h1 h2 h3
              exact absurd h1 hk
            · exact hmem
          · exact Or.inr
        · rw [if_neg hvw, ih hndrest r' k v w, hr']



/-! ### Loop-level lemmas for the document reader -/

/-- The single loop iteration with the pre-loop blank filter folded in. -/
def lineStep (st : List Char × ConfigMap) (line : List Char) : List Char × ConfigMap :=
  if keepLine line then processLine st line else st

theorem foldl_filter_guard {α β : Type} (p : α → Bool) (f : β → α → β) :
    ∀ (ls : List α) (init : β),
      (ls.filter p).foldl f init = ls.foldl (fun st x => if p x then f st x else st) init := by
  intro ls
  induction ls with
  | nil => intro init; rfl
  | cons a rest ih =>
    intro init
    rw [List.filter_cons]
    by_cases hp : p a
    · rw [if_pos hp, List.foldl_cons, List.foldl_cons, if_pos hp]
      exact ih _
    · rw [if_neg hp, List.foldl_cons, if_neg hp]
      exact ih _

/-- `read_to_map` as a fold of `lineStep` over the raw line list. -/
theorem read_to_map_eq_foldl_lineStep (input : List Char) :
    read_to_map input = ((rustLines input).foldl lineStep ("root".toList, [])).2 := by
  rw [read_to_map, foldl_filter_guard keepLine processLine]
  rfl

theorem trim_eq_nil_of_whitespace {s : List Char} (h : is_whitespace s = true) :
    trim s = [] := by
  rw [is_whitespace, List.all_eq_true] at h
  rw [trim, List.dropWhile_eq_nil_iff.mpr h]
  rfl

/-- If the first non-whitespace character of a line is `';'`, then comment
stripping and trimming leave nothing. -/
theorem findChar_comment_start :
    ∀ {l : List Char}, (l.dropWhile Char.isWhitespace).head? = some ';' →
      ∃ idx, findChar ';' l = some idx ∧ is_whitespace (l.take idx) = true := by
  intro l
  induction l with
  | nil => intro h; simp [List.dropWhile] at h
  | cons c rest ih =>
    intro h
    by_cases hw : Char.isWhitespace c
    · rw [List.dropWhile_cons_of_pos hw] at h
      obtain ⟨idx, hfind, hws⟩ := ih h
      have hc : ¬c = ';' := by
        intro he
        subst he
        exact absurd hw (by decide)
      refine ⟨idx + 1, ?_, ?_⟩
      · rw [findChar, if_neg hc, hfind]
        rfl
      · rw [List.take_succ_cons, is_whitespace, List.all_cons, hw]
        exact hws
    · rw [List.dropWhile_cons_of_neg hw] at h
      rw [List.head?_cons, Option.some_inj] at h
      subst h
      exact ⟨0, by rw [findChar, if_pos rfl], by rfl⟩

theorem cleanLine_comment_start {l : List Char}
    (h : (l.dropWhile Char.isWhitespace).head? = some ';') : cleanLine l = [] := by
  obtain ⟨idx, hfind, hws⟩ := findChar_comment_start h
  rw [cleanLine, hfind]
  exact trim_eq_nil_of_whitespace hws

theorem cleanLine_of_whitespace {l : List Char} (h : is_whitespace l = true) :
    cleanLine l = [] := by
  rw [cleanLine]
  cases hf : findChar ';' l with
  | none => exact trim_eq_nil_of_whitespace h
  | some idx =>
    refine trim_eq_nil_of_whitespace ?_
    rw [is_whitespace, List.all_eq_true] at h ⊢
    intro x hx
    exact h x (List.mem_of_mem_take hx)

/-- The three possible effects of one loop iteration: no effect, a section
switch, or a key/value insertion under the current section. -/
theorem processLine_cases (sec : List Char) (m : ConfigMap) (line : List Char) :
    processLine (sec, m) line = (sec, m) ∨
      (processLine (sec, m) line = (((cleanLine line).drop 1).dropLast, m) ∧
        (cleanLine line).head? = some '[' ∧ (cleanLine line).getLast? = some ']') ∨
      (∃ idx, findChar '=' (cleanLine line) = some idx ∧
        processLine (sec, m) line =
          (sec, mapInsert m ⟨sec, trim ((cleanLine line).take idx)⟩
            (trim ((cleanLine line).drop idx)))) := by
  rw [processLine]
  by_cases he : (cleanLine line).isEmpty = true
  · rw [if_pos he]
    exact Or.inl rfl
  · rw [if_neg he]
    by_cases hdr : ((cleanLine line).head? == some '[' &&
        (cleanLine line).getLast? == some ']') = true
    · rw [if_pos hdr]
      refine Or.inr (Or.inl ⟨rfl, ?_, ?_⟩)
      · exact eq_of_beq ((Bool.and_eq_true _ _).mp hdr).1
      · exact eq_of_beq ((Bool.and_eq_true _ _).mp hdr).2
    · rw [if_neg hdr]
      cases hf : findChar '=' (cleanLine line) with
      | none => exact Or.inl rfl
      | some idx => exact Or.inr (Or.inr ⟨idx, rfl, rfl⟩)

theorem mem_mapInsert {m : ConfigMap} {k : Key} {v : List Char} {kv : Key × List Char}
    (h : kv ∈ mapInsert m k v) : kv = (k, v) ∨ kv ∈ m := by
  rw [mapInsert, List.mem_cons] at h
  rcases h with h | h
  · exact Or.inl h
  · exact Or.inr (List.mem_filter.mp h).1

/-- In the absence of section-header lines, the fold keeps the current
section and files every new key under it. -/
theorem foldl_lineStep_section_inv :
    ∀ (ls : List (List Char)) (sec : List Char) (m : ConfigMap),
      (∀ l ∈ ls, ¬((cleanLine l).head? = some '[' ∧ (cleanLine l).getLast? = some ']')) →
      (∀ kv ∈ m, kv.1.sectionName = sec) →
      (ls.foldl lineStep (sec, m)).1 = sec ∧
        ∀ kv ∈ (ls.foldl lineStep (sec, m)).2, kv.1.sectionName = sec := by
  intro ls
  induction ls with
  | nil => intro sec m _ hm; exact ⟨rfl, hm⟩
  | cons l rest ih =>
    intro sec m hnh hm
    rw [List.foldl_cons]
    rw [lineStep]
    by_cases hk : keepLine l = true
    · rw [if_pos hk]
      rcases processLine_cases sec m l with hcase | hcase | hcase
      · rw [hcase]
        exact ih sec m (fun x hx => hnh x (List.mem_cons_of_mem l hx)) hm
      · exact absurd ⟨hcase.2.1, hcase.2.2⟩ (hnh l (List.mem_cons_self l rest))
      · obtain ⟨idx, -, heq⟩ := hcase
        rw [heq]
        refine ih sec _ (fun x hx => hnh x (List.mem_cons_of_mem l hx)) ?_
        intro kv hkv
        rcases mem_mapInsert hkv with h | h
        · rw [h]
        · exact hm kv h
    · rw [if_neg hk]
      exact ih sec m (fun x hx => hnh x (List.mem_cons_of_mem l hx)) hm

/-- `processLine` is a no-op when comment stripping and trimming leave an
empty line. -/
theorem processLine_of_cleanLine_nil {st : List Char × ConfigMap} {line : List Char}
    (h : cleanLine line = []) : processLine st line = st := by
  unfold processLine
  rw [h]
  rfl

/-! ### Claim theorems -/

/-- C1: at the spec's own examples, the key is indeed the trimmed text before
the first `'='` with any `';'`-comment stripped first, but the stored value is
NOT the trimmed text after the `'='`: `split_at` leaves the separator in the
value half, so `"[s]\nk = v\n"` stores `"= v"` and `"k=v ; comment"` stores
`"=v"`, each under the expected key. -/
theorem c1_value_keeps_separator :
    read_to_map ("[s]\nk = v\n".toList) = [(⟨"s".toList, "k".toList⟩, "= v".toList)] ∧
    read_to_map ("k=v ; comment".toList) = [(⟨"root".toList, "k".toList⟩, "=v".toList)] :=
  ⟨by decide, by decide⟩

/-- C2: parsing `"k="` does make the key `{root, k}` present (distinct from an
absent key), but its value is the one-character string `"="`, not `""`: the
`'='` kept by `split_at` is the whole trimmed value. -/
theorem c2_trailing_equals_value :
    read_to_map ("k=".toList) = [(⟨"root".toList, "k".toList⟩, "=".toList)] ∧
    lookupKey ⟨"root".toList, "k".toList⟩ (read_to_map ("k=".toList)) = some ("=".toList) :=
  ⟨by decide, by decide⟩

/-- C3: the diff engine emits a difference exactly for the keys present in
both maps whose values differ as strings, carrying both values; and on the
spec's examples it yields the empty set resp. the single expected
difference. -/
theorem c3_diff_characterization :
    (∀ (left : ConfigMap), nodupKeys left →
      ∀ (right : ConfigMap) (k : Key) (v w : List Char),
        (⟨k, v, w⟩ : Difference) ∈ diffMaps left right ↔
          (lookupKey k left = some v ∧ lookupKey k right = some w ∧ v ≠ w)) ∧
    diffMaps
        [(⟨"a".toList, "x".toList⟩, "1".toList), (⟨"a".toList, "y".toList⟩, "2".toList)]
        [(⟨"a".toList, "x".toList⟩, "1".toList), (⟨"a".toList, "z".toList⟩, "3".toList)] = [] ∧
    diffMaps [(⟨"a".toList, "x".toList⟩, "1".toList)] [(⟨"a".toList, "x".toList⟩, "2".toList)] =
      [⟨⟨"a".toList, "x".toList⟩, "1".toList, "2".toList⟩] :=
  ⟨diffMaps_mem_iff, by decide, by decide⟩

theorem c3_diff_characterization_witness :
    (⟨⟨"a".toList, "x".toList⟩, "1".toList, "2".toList⟩ : Difference) ∈
      diffMaps [(⟨"a".toList, "x".toList⟩, "1".toList)] [(⟨"a".toList, "x".toList⟩, "2".toList)] :=
  (c3_diff_characterization.1 [(⟨"a".toList, "x".toList⟩, "1".toList)] (by decide)
    [(⟨"a".toList, "x".toList⟩, "2".toList)] ⟨"a".toList, "x".toList⟩ "1".toList
    "2".toList).mpr (by decide)

/-- C4: a comment-stripped, trimmed line that starts with `'['` and ends with
`']'` is always handled as a section header — the new section is the
substring strictly between the boundary brackets, the map is untouched — even
when the line contains `'='`; in particular `"[a=b]"` opens section `"a=b"`
and a following key is filed under it. -/
theorem c4_header_priority :
    (∀ (sec : List Char) (m : ConfigMap) (line : List Char),
      (cleanLine line).head? = some '[' → (cleanLine line).getLast? = some ']' →
      processLine (sec, m) line = (((cleanLine line).drop 1).dropLast, m)) ∧
    read_to_map ("[a=b]\nk=v".toList) = [(⟨"a=b".toList, "k".toList⟩, "=v".toList)] := by
  constructor
  · intro sec m line hh hl
    unfold processLine
    have hne : ¬(cleanLine line).isEmpty = true := by
      intro he
      rw [List.isEmpty_iff] at he
      rw [he] at hh
      cases hh
    rw [if_neg hne]
    have hdr : ((cleanLine line).head? == some '[' &&
        (cleanLine line).getLast? == some ']') = true :=
      (Bool.and_eq_true _ _).mpr ⟨beq_iff_eq.mpr hh, beq_iff_eq.mpr hl⟩
    rw [if_pos hdr]
  · decide

theorem c4_header_priority_witness :
    processLine ("root".toList, []) ("[a=b]".toList) = ("a=b".toList, []) := by
  rw [c4_header_priority.1 ("root".toList) [] ("[a=b]".toList) (by decide) (by decide)]
  decide

/-- C5: `"k=v"` alone parses to exactly one entry whose key is
`{root, k}`, and in general, while no section-header line has occurred,
every entry is filed under the initial section `"root"`. -/
theorem c5_root_section :
    read_to_map ("k=v".toList) = [(⟨"root".toList, "k".toList⟩, "=v".toList)] ∧
    (∀ input : List Char,
      (∀ l ∈ rustLines input,
        ¬((cleanLine l).head? = some '[' ∧ (cleanLine l).getLast? = some ']')) →
      ∀ kv ∈ read_to_map input, kv.1.sectionName = "root".toList) := by
  constructor
  · decide
  · intro input h kv hkv
    rw [read_to_map_eq_foldl_lineStep] at hkv
    exact (foldl_lineStep_section_inv (rustLines input) ("root".toList) [] h
      (fun kv h => by cases h)).2 kv hkv

theorem c5_root_section_witness :
    (Key.mk "root".toList "k".toList).sectionName = "root".toList :=
  c5_root_section.2 ("k=v".toList) (by decide)
    (⟨"root".toList, "k".toList⟩, "=v".toList) (by decide)

/-- C6: last write wins — `"[s]\nk=1\nk=2\n"` leaves exactly one entry for
the key `{s, k}`, holding the value extracted from the final line `"k=2"`;
but that extracted value is `"=2"` (the `'='` is kept by `split_at`), not
`"2"` as the claim states. -/
theorem c6_last_write_wins :
    read_to_map ("[s]\nk=1\nk=2\n".toList) = [(⟨"s".toList, "k".toList⟩, "=2".toList)] ∧
    lookupKey ⟨"s".toList, "k".toList⟩ (read_to_map ("[s]\nk=1\nk=2\n".toList)) ≠
      some ("2".toList) :=
  ⟨by decide, by decide⟩

/-- C7: a line that is empty, all-whitespace, a comment from its first
non-blank character, or — after comment stripping and trimming — neither a
section header nor an `'='`-line, leaves the loop state (current section and
map) unchanged; and the reader is total: the bounds-checked reader succeeds
on every input. -/
theorem c7_skipped_lines :
    (∀ (st : List Char × ConfigMap) (line : List Char),
      (line = [] ∨ is_whitespace line = true ∨
        (line.dropWhile Char.isWhitespace).head? = some ';' ∨
        (¬((cleanLine line).head? = some '[' ∧ (cleanLine line).getLast? = some ']') ∧
          findChar '=' (cleanLine line) = none)) →
      lineStep st line = st) ∧
    (∀ input : List Char, (read_to_mapChecked input).isSome = true) := by
  constructor
  · intro st line h
    obtain ⟨sec, m⟩ := st
    rw [lineStep]
    by_cases hk : keepLine line = true
    · rw [if_pos hk]
      rcases h with h | h | h | h
      · subst h
        exact absurd hk (by decide)
      · rw [keepLine, h] at hk
        simp at hk
      · exact processLine_of_cleanLine_nil (cleanLine_comment_start h)
      · rcases processLine_cases sec m line with hc | hc | hc
        · exact hc
        · exact absurd ⟨hc.2.1, hc.2.2⟩ h.1
        · obtain ⟨idx, hf, -⟩ := hc
          rw [h.2] at hf
          cases hf
    · rw [if_neg hk]
  · intro input
    rw [read_to_mapChecked_eq input]
    rfl

theorem c7_skipped_lines_witness :
    lineStep ("root".toList, []) ("  ; note".toList) = ("root".toList, []) :=
  c7_skipped_lines.1 ("root".toList, []) ("  ; note".toList) (by decide)

/-- C8: `is_ignored` returns `true` exactly when the key's property string or
its section name is a member of the ignore set; on the spec's examples,
`"a"` (section) and `"x"` (property) suppress the `a.x` difference while
`"b"` does not, and the empty set ignores nothing. -/
theorem c8_ignore_filter :
    (∀ (ig : List (List Char)) (k : Key),
      is_ignored ig k = true ↔ (k.property ∈ ig ∨ k.sectionName ∈ ig)) ∧
    is_ignored ["a".toList] ⟨"a".toList, "x".toList⟩ = true ∧
    is_ignored ["x".toList] ⟨"a".toList, "x".toList⟩ = true ∧
    is_ignored ["b".toList] ⟨"a".toList, "x".toList⟩ = false := by
  refine ⟨?_, by decide, by decide, by decide⟩
  intro ig k
  rw [is_ignored]
  by_cases hig : ig.isEmpty = true
  · rw [if_pos hig]
    have hig' : ig = [] := List.isEmpty_iff.mp hig
    subst hig'
    simp
  · rw [if_neg hig]
    constructor
    · intro h
      rcases (Bool.or_eq_true _ _).mp h with h | h
      · exact Or.inr (of_decide_eq_true h)
      · exact Or.inl (of_decide_eq_true h)
    · intro h
      rcases h with h | h
      · exact (Bool.or_eq_true _ _).mpr (Or.inr (decide_eq_true h))
      · exact (Bool.or_eq_true _ _).mpr (Or.inl (decide_eq_true h))

/-- C9: keys are compared by resolved section name and property string, not
by interning identity: reopening `[a]` after `[b]` files `k=3` under a key
equal to the earlier `{a, k}` (overwriting it, leaving two entries in all),
and the diff engine matches that key across two independently parsed maps. -/
theorem c9_key_equality_by_name :
    (∀ k₁ k₂ : Key, k₁ = k₂ ↔
      (k₁.sectionName = k₂.sectionName ∧ k₁.property = k₂.property)) ∧
    read_to_map ("[a]\nk=1\n[b]\nj=2\n[a]\nk=3\n".toList) =
      [(⟨"a".toList, "k".toList⟩, "=3".toList), (⟨"b".toList, "j".toList⟩, "=2".toList)] ∧
    diffMaps (read_to_map ("[a]\nk=1\n[b]\nj=2\n[a]\nk=3\n".toList))
        (read_to_map ("[a]\nk=4\n".toList)) =
      [⟨⟨"a".toList, "k".toList⟩, "=3".toList, "=4".toList⟩] := by
  refine ⟨?_, by decide, by decide⟩
  intro k₁ k₂
  cases k₁
  cases k₂
  simp

/-- C10: `read_to_map` is total and panic-free: the variant in which every
string-slicing operation carries its Rust bounds check returns `some` map on
every input, agreeing with the total embedding — the section-header slice is
guarded by the boundary checks and the `find`-derived split indices are
always in range. -/
theorem c10_reader_never_panics :
    ∀ input : List Char, read_to_mapChecked input = some (read_to_map input) :=
  read_to_mapChecked_eq


end AircraftDiff
